import Mathlib

/-!
Shallow embedding of the name-composition engine of `rust-petname`
(`src/lib.rs`): the `Lists` role state machine, `Petnames` word store with
`generate_raw` / `generate` / `cardinality` / `retain`, the `Alliterations`
grouping, and (modelled from the spec, as the code ships only its tests)
the non-repeating enumerator.  Machine integers (`u8`, `u128`, `usize`)
are embedded as `Nat` with explicit saturation at `2 ^ 128 - 1`; the
random source is an abstract stream of naturals consumed one value per
draw.
-/

namespace Petname

/-- Abstract random source: an infinite stream of naturals together with a
position.  A uniform draw from a list of length `n` is modelled as reading
the next stream value and reducing it mod `n`. -/
structure Rng where
  stream : Nat → Nat
  pos : Nat

/-- Read one value from the random source, advancing its position. -/
def Rng.next (r : Rng) : Nat × Rng :=
  (r.stream r.pos, { r with pos := r.pos + 1 })

/-- Choose an index below `n` using the random source.  Returns no index
(and leaves the source untouched) when `n = 0`, matching `rand`'s
`choose`, which returns `None` on an empty slice without drawing. -/
def chooseIdx (n : Nat) (r : Rng) : Option Nat × Rng :=
  if n = 0 then (none, r)
  else
    let v := r.next
    (some (v.1 % n), v.2)

/-- `choose` on a slice: pick a random element, `none` when empty.
Embeds `IndexedRandom::choose` from `lib.rs`. -/
def chooseList {α : Type} (l : List α) (r : Rng) : Option α × Rng :=
  match chooseIdx l.length r with
  | (none, r') => (none, r')
  | (some i, r') => (l.get? i, r')

/-- The `List` enum of `lib.rs` (renamed: `List` is taken in Lean):
which word list to use. -/
inductive ListRole where
  | adverb
  | adjective
  | noun
deriving DecidableEq, Repr

/-- The `Lists` iterator state of `lib.rs`: which word list to use next
when constructing a petname. -/
inductive Lists where
  | adverb (remaining : Nat)
  | adjective
  | noun
  | done
deriving DecidableEq, Repr

/-- `Lists::new` from `lib.rs`: initial state for an `n`-word petname.
For `n ≥ 3` the Rust code stores `n - 3` (a `u8` subtraction that cannot
underflow there). -/
def Lists.new (words : Nat) : Lists :=
  match words with
  | 0 => .done
  | 1 => .noun
  | 2 => .adjective
  | n + 3 => .adverb n

/-- `Lists::current` from `lib.rs`. -/
def Lists.current : Lists → Option ListRole
  | .adjective => some .adjective
  | .adverb _ => some .adverb
  | .noun => some .noun
  | .done => none

/-- `Lists::advance` from `lib.rs`. -/
def Lists.advance : Lists → Lists
  | .adverb 0 => .adjective
  | .adverb (remaining + 1) => .adverb remaining
  | .adjective => .noun
  | .noun => .done
  | .done => .done

/-- `Lists::remaining` from `lib.rs` (the exact size hint). -/
def Lists.remaining : Lists → Nat
  | .adverb n => n + 3
  | .adjective => 2
  | .noun => 1
  | .done => 0

/-- The roles yielded from state `Adverb(n)` onwards: `n + 1` adverbs,
then an adjective, then a noun. -/
def adverbsSeq : Nat → List ListRole
  | 0 => [.adverb, .adjective, .noun]
  | n + 1 => .adverb :: adverbsSeq n

/-- The full (finite) sequence of roles yielded by the `Lists` iterator:
each `next()` yields `current` and then advances (see
`Lists.seq_iterator_step`). -/
def Lists.seq : Lists → List ListRole
  | .done => []
  | .noun => [.noun]
  | .adjective => [.adjective, .noun]
  | .adverb n => adverbsSeq n

/-- The word store of `lib.rs`: three word lists. -/
structure Petnames where
  adjectives : List String
  adverbs : List String
  nouns : List String
deriving DecidableEq, Repr

/-- The word list a role selects (the three `match` arms appearing in
`cardinality` and `generate_raw`). -/
def Petnames.roleList (p : Petnames) : ListRole → List String
  | .adverb => p.adverbs
  | .adjective => p.adjectives
  | .noun => p.nouns

/-- `Petnames::retain` from `lib.rs`: keep words matching a predicate in
all three lists (`Vec::retain` keeps matching elements in order). -/
def Petnames.retain (p : Petnames) (predicate : String → Bool) : Petnames :=
  { adjectives := p.adjectives.filter predicate
    adverbs := p.adverbs.filter predicate
    nouns := p.nouns.filter predicate }

/-- `u128::MAX`. -/
def u128Max : Nat := 2 ^ 128 - 1

/-- `usize::MAX` (64-bit target). -/
def usizeMax : Nat := 2 ^ 64 - 1

/-- `u128::saturating_mul` on the `Nat` embedding. -/
def saturatingMul (a b : Nat) : Nat := min (a * b) u128Max

/-- `u128::saturating_add` on the `Nat` embedding. -/
def saturatingAdd (a b : Nat) : Nat := min (a + b) u128Max

/-- `Iterator::reduce(f).unwrap_or(0)`: fold the tail onto the head,
`0` for the empty sequence. -/
def reduceD (f : Nat → Nat → Nat) : List Nat → Nat
  | [] => 0
  | x :: xs => xs.foldl f x

/-- `Petnames::cardinality` from `lib.rs`. -/
def Petnames.cardinality (p : Petnames) (words : Nat) : Nat :=
  reduceD saturatingMul (((Lists.new words).seq).map (fun l => (p.roleList l).length))

/-- The `filter_map` loop of `Petnames::generate_raw`: draw one word per
role whose list is non-empty, threading the random source left to right;
an empty list draws nothing and consumes no randomness. -/
def drawAll (p : Petnames) : List ListRole → Rng → List String × Rng
  | [], r => ([], r)
  | l :: ls, r =>
    match chooseList (p.roleList l) r with
    | (none, r') => drawAll p ls r'
    | (some w, r') =>
      let rest := drawAll p ls r'
      (w :: rest.1, rest.2)

/-- The words collected by `Petnames::generate_raw` before the emptiness
check. -/
def Petnames.drawnWords (p : Petnames) (rng : Rng) (words : Nat) : List String :=
  (drawAll p ((Lists.new words).seq) rng).1

/-- `Petnames::generate_raw` from `lib.rs`. -/
def Petnames.generate_raw (p : Petnames) (rng : Rng) (words : Nat) : Option (List String) :=
  let name := p.drawnWords rng words
  if name.isEmpty then none else some name

/-- `slice::join` on strings, as used by `Generator::generate`. -/
def joinWords (sep : String) : List String → String
  | [] => ""
  | [w] => w
  | w :: ws => w ++ sep ++ joinWords sep ws

/-- `Generator::generate` from `lib.rs`: join the raw words with the
separator. -/
def Petnames.generate (p : Petnames) (rng : Rng) (words : Nat) (sep : String) : Option String :=
  (p.generate_raw rng words).map (joinWords sep)

/-- `s.chars().next()` from `lib.rs`: the first character of a word, if
any. -/
def firstLetter (s : String) : Option Char := s.data.head?

/-- `BTreeMap::entry(c).or_default().push(w)` on a `BTreeMap` modelled as
an association list sorted by key: append `w` to the bucket for `c`,
creating the bucket at its sorted position when absent. -/
def bucketInsert (c : Char) (w : String) : List (Char × List String) → List (Char × List String)
  | [] => [(c, [w])]
  | (k, ws) :: rest =>
    if c < k then (c, [w]) :: (k, ws) :: rest
    else if c = k then (k, ws ++ [w]) :: rest
    else (k, ws) :: bucketInsert c w rest

/-- One step of the fold in `group_words_by_first_letter`: bucket `s`
under its first character, dropping it when it has none. -/
def groupStep (acc : List (Char × List String)) (s : String) : List (Char × List String) :=
  match firstLetter s with
  | some first_letter => bucketInsert first_letter s acc
  | none => acc

/-- `group_words_by_first_letter` from `lib.rs`: bucket words by first
character, dropping words with no characters. -/
def group_words_by_first_letter (words : List String) : List (Char × List String) :=
  words.foldl groupStep []

/-- `map.remove(&c).unwrap_or_default()` on the bucket map: the bucket for
`c`, or the empty list.  (In `From<Petnames> for Alliterations` each noun
key is visited once, so `remove` and lookup agree.) -/
def lookupGroup (m : List (Char × List String)) (c : Char) : List String :=
  match m.find? (fun e => e.1 == c) with
  | some e => e.2
  | none => []

/-- The `Alliterations` store of `lib.rs`: a `BTreeMap<char, Petnames>`,
modelled as an association list in key order. -/
structure Alliterations where
  groups : List (Char × Petnames)
deriving DecidableEq, Repr

/-- `From<Petnames> for Alliterations` from `lib.rs`: group each list by
first letter and build one group per noun key. -/
def Alliterations.fromPetnames (p : Petnames) : Alliterations :=
  { groups :=
      (group_words_by_first_letter p.nouns).map fun e =>
        (e.1,
          { adjectives := lookupGroup (group_words_by_first_letter p.adjectives) e.1
            adverbs := lookupGroup (group_words_by_first_letter p.adverbs) e.1
            nouns := e.2 }) }

/-- `Alliterations::cardinality` from `lib.rs`: saturating sum of the
group cardinalities (`values()` iterates in key order). -/
def Alliterations.cardinality (al : Alliterations) (words : Nat) : Nat :=
  reduceD saturatingAdd (al.groups.map (fun e => e.2.cardinality words))

/-- `Alliterations::generate_raw` from `lib.rs`: choose one group at
random, then delegate to it (`IteratorRandom::choose` over `values()` is
abstracted as one uniform draw over the groups in key order). -/
def Alliterations.generate_raw (al : Alliterations) (rng : Rng) (words : Nat) :
    Option (List String) :=
  match chooseList (al.groups.map (fun e => e.2)) rng with
  | (none, _) => none
  | (some g, r') => g.generate_raw r' words

/-!
The non-repeating enumerator.  Its implementation is not part of the
sources here (only its tests are), so it is modelled from the spec.
-/

/-- Modelled from the spec: the enumerator state — not yet started,
running with one cursor per position, or permanently exhausted.  The
spec's per-position cyclic buffer with a trailing sentinel is represented
by a cursor into the buffer: yielding the sentinel and cycling to a fresh
word is exactly wrapping the cursor to `0` with a carry. -/
inductive NRState where
  | fresh
  | running (idxs : List Nat)
  | done
deriving DecidableEq, Repr

/-- Modelled from the spec: the odometer carry step.  The first (leftmost,
first-drawn) position is the fastest digit; advancing past the end of a
buffer wraps to `0` and carries into the next slower position; a carry
past the last position signals exhaustion (`none`). -/
def stepIdxs : List Nat → List Nat → Option (List Nat)
  | [], [] => none
  | n :: ns, i :: is =>
    if i + 1 < n then some ((i + 1) :: is)
    else (stepIdxs ns is).map (fun js => 0 :: js)
  | _, _ => none

/-- The words currently under the cursors, one per position. -/
def tupleAt (bufs : List (List String)) (idxs : List Nat) : List String :=
  List.zipWith (fun b i => b.getD i "") bufs idxs

/-- Modelled from the spec: one `next()` call of the non-repeating
enumerator over fixed per-position buffers.  (The spec shuffles each
buffer once at setup; a shuffle only permutes a buffer, and none of the
claimed properties depend on buffer order, so the model takes the
already-shuffled buffers as given.)  The first call populates every
position with its first word; if there are no positions or some buffer is
empty, the enumerator is exhausted immediately and yields nothing. -/
def nrNext (bufs : List (List String)) : NRState → Option (List String) × NRState
  | .fresh =>
    if bufs.isEmpty || bufs.any (fun b => b.isEmpty) then (none, .done)
    else (some (tupleAt bufs (bufs.map fun _ => 0)), .running (bufs.map fun _ => 0))
  | .running idxs =>
    match stepIdxs (bufs.map List.length) idxs with
    | none => (none, .done)
    | some idxs' => (some (tupleAt bufs idxs'), .running idxs')
  | .done => (none, .done)

/-- The enumerator state after `k` calls to `next()`. -/
def nrStateAfter (bufs : List (List String)) : Nat → NRState
  | 0 => .fresh
  | k + 1 => (nrNext bufs (nrStateAfter bufs k)).2

/-- The result of the `k`-th call to `next()` (0-based). -/
def nrOutput (bufs : List (List String)) (k : Nat) : Option (List String) :=
  (nrNext bufs (nrStateAfter bufs k)).1

/-- `List.flatMap`, written out so its indexing lemmas can be proved
directly. -/
def concatMap {α β : Type} (f : α → List β) : List α → List β
  | [] => []
  | x :: xs => f x ++ concatMap f xs

/-- All tuples of the cartesian product of the buffers, first coordinate
fastest — the order the odometer visits them. -/
def tuples {α : Type} : List (List α) → List (List α)
  | [] => [[]]
  | b :: bs => concatMap (fun rest => b.map (fun w => w :: rest)) (tuples bs)

/-- Modelled from the spec: the per-position buffers the enumerator cycles
for an `N`-word name — the word list of each role the role sequence
visits. -/
def buffersFor (p : Petnames) (N : Nat) : List (List String) :=
  ((Lists.new N).seq).map p.roleList

/-- Modelled from the spec: the name produced by the `k`-th call of
`iter_non_repeating(rng, N, sep)` — the current digit words joined with
the separator, or `none` once exhausted. -/
def iterNonRepeatingOut (p : Petnames) (sep : String) (N k : Nat) : Option String :=
  (nrOutput (buffersFor p N) k).map (joinWords sep)

/-- The role sequence in its specification shape: `n - 2` adverbs, then an
adjective when `n ≥ 2`, then a noun when `n ≥ 1`. -/
def roleSequence (n : Nat) : List ListRole :=
  List.replicate (n - 2) .adverb
    ++ (if 2 ≤ n then [ListRole.adjective] else [])
    ++ (if 1 ≤ n then [ListRole.noun] else [])

/-- The mixed-radix value of an odometer cursor: the fastest (first)
position is the least significant digit. -/
def rank : List Nat → List Nat → Nat
  | [], [] => 0
  | n :: ns, i :: is => i + n * rank ns is
  | _, _ => 0

/-- `joinWords` at the character level, for reasoning about string
equality of joined names. -/
def joinChars (sep : List Char) : List (List Char) → List Char
  | [] => []
  | [w] => w
  | w :: ws => w ++ sep ++ joinChars sep ws

/-- A deterministic random source: the all-zero stream. -/
def rng0 : Rng := ⟨fun _ => 0, 0⟩

/-- The alliteration example store of the spec. -/
def pEx : Petnames := ⟨["able", "bold"], ["burly", "curly"], ["ant", "bee", "cow"]⟩

/-- A store whose noun list repeats a word. -/
def pDup : Petnames := ⟨["x"], ["y"], ["a", "a"]⟩

lemma Lists.seq_iterator_step (l : Lists) :
    l.seq = match l.current with
            | none => []
            | some role => role :: l.advance.seq := by
  match l with
  | .done => rfl
  | .noun => rfl
  | .adjective => rfl
  | .adverb 0 => rfl
  | .adverb (n + 1) => rfl

lemma Lists.seq_adverb (n : Nat) :
    (Lists.adverb n).seq = List.replicate (n + 1) .adverb ++ [.adjective, .noun] := by
  induction n with
  | zero => rfl
  | succ n ih =>
    show ListRole.adverb :: (Lists.adverb n).seq = _
    rw [ih]
    simp [List.replicate_succ]

lemma Lists.seq_new (n : Nat) : (Lists.new n).seq = roleSequence n := by
  match n with
  | 0 => simp [Lists.new, Lists.seq, roleSequence]
  | 1 => simp [Lists.new, Lists.seq, roleSequence]
  | 2 => simp [Lists.new, Lists.seq, roleSequence]
  | n + 3 =>
    rw [Lists.new, Lists.seq_adverb, roleSequence]
    have h2 : 2 ≤ n + 3 := by omega
    have h1 : 1 ≤ n + 3 := by omega
    have hr : n + 3 - 2 = n + 1 := by omega
    simp [h1, h2, hr]

lemma length_roleSequence (n : Nat) : (roleSequence n).length = n := by
  unfold roleSequence
  rcases n with _ | _ | n <;> simp

/-- Drawing from an empty list yields nothing and leaves the random
source untouched. -/
lemma chooseList_nil {α : Type} (r : Rng) : chooseList ([] : List α) r = (none, r) := rfl

/-- Drawing from a non-empty list yields a member of the list. -/
lemma chooseList_ne_nil {α : Type} (l : List α) (r : Rng) (h : l ≠ []) :
    ∃ w r', chooseList l r = (some w, r') ∧ w ∈ l := by
  have hl : l.length ≠ 0 := by simpa [List.length_eq_zero] using h
  have hlt : r.stream r.pos % l.length < l.length :=
    Nat.mod_lt _ (Nat.pos_of_ne_zero hl)
  obtain ⟨w, hw⟩ : ∃ w, l.get? (r.stream r.pos % l.length) = some w :=
    ⟨l.get ⟨_, hlt⟩, List.get?_eq_some.mpr ⟨hlt, rfl⟩⟩
  refine ⟨w, { r with pos := r.pos + 1 }, ?_, List.get?_mem hw⟩
  simp only [chooseList, chooseIdx, hl, if_false, Rng.next, hw]

/-- The words drawn by the `filter_map` loop correspond, in order, to the
positions of the role list whose word list is non-empty. -/
lemma drawAll_forall₂ (p : Petnames) : ∀ (roles : List ListRole) (rng : Rng),
    List.Forall₂ (fun ro w => w ∈ p.roleList ro)
      (roles.filter (fun ro => !(p.roleList ro).isEmpty))
      (drawAll p roles rng).1 := by
  intro roles
  induction roles with
  | nil => intro rng; simp [drawAll]
  | cons l ls ih =>
    intro rng
    by_cases h : p.roleList l = []
    · have hc : chooseList (p.roleList l) rng = (none, rng) := by rw [h]; rfl
      simpa [drawAll, hc, h] using ih rng
    · obtain ⟨w, r', hc, hw⟩ := chooseList_ne_nil _ rng h
      have hne : (p.roleList l).isEmpty = false := by
        simpa [List.isEmpty_iff] using h
      simp only [drawAll, hc, List.filter_cons, hne]
      exact List.Forall₂.cons hw (ih r')

lemma usizeMax_le_u128Max : usizeMax ≤ u128Max := by
  unfold usizeMax u128Max
  norm_num

/-- Left folds of saturating multiplication compute the clamped product. -/
lemma foldl_satMul_eq (l : List Nat) : ∀ x, x ≤ u128Max →
    l.foldl saturatingMul x = min (x * l.prod) u128Max := by
  induction l with
  | nil =>
    intro x hx
    simp [Nat.min_eq_left hx]
  | cons y ys ih =>
    intro x hx
    rw [List.foldl_cons, List.prod_cons, ih (saturatingMul x y) (min_le_right _ _)]
    unfold saturatingMul
    rcases le_or_lt (x * y) u128Max with h | h
    · rw [Nat.min_eq_left h, ← Nat.mul_assoc]
    · rw [Nat.min_eq_right (le_of_lt h)]
      rcases Nat.eq_zero_or_pos ys.prod with h0 | h0
      · simp [h0]
      · have h1 : u128Max ≤ u128Max * ys.prod := Nat.le_mul_of_pos_right _ h0
        have h2 : u128Max ≤ x * (y * ys.prod) := by
          calc u128Max ≤ x * y := le_of_lt h
          _ ≤ x * y * ys.prod := Nat.le_mul_of_pos_right _ h0
          _ = x * (y * ys.prod) := Nat.mul_assoc _ _ _
        rw [Nat.min_eq_right h1, Nat.min_eq_right h2]

/-- A zero factor drives the saturating product to zero, with no bound on
the other factors. -/
lemma foldl_satMul_zero (l : List Nat) : ∀ x, x = 0 ∨ 0 ∈ l →
    l.foldl saturatingMul x = 0 := by
  induction l with
  | nil =>
    intro x h
    simpa using h
  | cons y ys ih =>
    intro x h
    rw [List.foldl_cons]
    rcases h with h | h
    · exact ih _ (Or.inl (by simp [h, saturatingMul]))
    · rcases List.mem_cons.mp h with h | h
      · exact ih _ (Or.inl (by simp [← h, saturatingMul]))
      · exact ih _ (Or.inr h)

/-- Left folds of saturating addition compute the clamped sum. -/
lemma foldl_satAdd_eq (l : List Nat) : ∀ x, x ≤ u128Max →
    l.foldl saturatingAdd x = min (x + l.sum) u128Max := by
  induction l with
  | nil =>
    intro x hx
    simp [Nat.min_eq_left hx]
  | cons y ys ih =>
    intro x hx
    rw [List.foldl_cons, List.sum_cons, ih (saturatingAdd x y) (min_le_right _ _)]
    unfold saturatingAdd
    rcases le_or_lt (x + y) u128Max with h | h
    · rw [Nat.min_eq_left h, ← Nat.add_assoc]
    · rw [Nat.min_eq_right (le_of_lt h)]
      have h1 : u128Max ≤ u128Max + ys.sum := Nat.le_add_right _ _
      have h2 : u128Max ≤ x + (y + ys.sum) := by omega
      rw [Nat.min_eq_right h1, Nat.min_eq_right h2]

/-- Every list length a role can select is bounded when the three lists
are (as in Rust, where lengths are `usize`). -/
lemma roleList_length_le (p : Petnames)
    (ha : p.adjectives.length ≤ usizeMax)
    (hb : p.adverbs.length ≤ usizeMax)
    (hc : p.nouns.length ≤ usizeMax) :
    ∀ role, (p.roleList role).length ≤ usizeMax := by
  intro role
  cases role <;> assumption

/-- `cardinality` never exceeds `u128::MAX`. -/
lemma cardinality_le (p : Petnames) (n : Nat)
    (ha : p.adjectives.length ≤ usizeMax)
    (hb : p.adverbs.length ≤ usizeMax)
    (hc : p.nouns.length ≤ usizeMax) :
    p.cardinality n ≤ u128Max := by
  unfold Petnames.cardinality reduceD
  cases h : ((Lists.new n).seq).map (fun l => (p.roleList l).length) with
  | nil => exact Nat.zero_le _
  | cons x xs =>
    have hx : x ∈ ((Lists.new n).seq).map (fun l => (p.roleList l).length) := by
      rw [h]; exact List.mem_cons_self _ _
    obtain ⟨role, _, hrole⟩ := List.mem_map.mp hx
    have : x ≤ u128Max :=
      le_trans (hrole ▸ roleList_length_le p ha hb hc role) usizeMax_le_u128Max
    show List.foldl saturatingMul x xs ≤ u128Max
    rw [foldl_satMul_eq xs x this]
    exact min_le_right _ _

/-- `bucketInsert` preserves the bucket invariant: buckets are non-empty
and their words satisfy the keyed predicate. -/
lemma bucketInsert_inv {Q : Char → String → Prop} (c : Char) (w : String) (hw : Q c w) :
    ∀ acc, (∀ e ∈ acc, e.2 ≠ [] ∧ ∀ x ∈ e.2, Q e.1 x) →
      ∀ e ∈ bucketInsert c w acc, e.2 ≠ [] ∧ ∀ x ∈ e.2, Q e.1 x := by
  intro acc
  induction acc with
  | nil =>
    intro _ e he
    simp only [bucketInsert, List.mem_singleton] at he
    subst he
    refine ⟨by simp, ?_⟩
    intro x hx
    rw [List.mem_singleton.mp hx]
    exact hw
  | cons hd tl ih =>
    intro hacc e he
    obtain ⟨k, ws⟩ := hd
    rw [bucketInsert] at he
    split at he
    · rcases List.mem_cons.mp he with h | h
      · subst h
        refine ⟨by simp, ?_⟩
        intro x hx
        rw [List.mem_singleton.mp hx]
        exact hw
      · exact hacc e h
    · split at he
      · rcases List.mem_cons.mp he with h | h
        · subst h
          rename_i hck
          refine ⟨by simp, ?_⟩
          intro x hx
          rcases List.mem_append.mp hx with h | h
          · exact (hacc (k, ws) (List.mem_cons_self _ _)).2 x h
          · rw [List.mem_singleton.mp h]
            exact hck ▸ hw
        · exact hacc e (List.mem_cons_of_mem _ h)
      · rcases List.mem_cons.mp he with h | h
        · subst h
          exact hacc (k, ws) (List.mem_cons_self _ _)
        · exact ih (fun e' he' => hacc e' (List.mem_cons_of_mem _ he')) e h

/-- The fold of `groupStep` preserves the bucket invariant, where every
word of every bucket has its key as first letter and comes from the
folded words. -/
lemma foldl_groupStep_inv (P : String → Prop) :
    ∀ (ws : List String) (acc : List (Char × List String)),
      (∀ w ∈ ws, P w) →
      (∀ e ∈ acc, e.2 ≠ [] ∧ ∀ x ∈ e.2, firstLetter x = some e.1 ∧ P x) →
      ∀ e ∈ ws.foldl groupStep acc, e.2 ≠ [] ∧ ∀ x ∈ e.2, firstLetter x = some e.1 ∧ P x := by
  intro ws
  induction ws with
  | nil => intro acc _ hacc; simpa using hacc
  | cons w ws' ih =>
    intro acc hws hacc
    rw [List.foldl_cons]
    refine ih _ (fun x hx => hws x (List.mem_cons_of_mem _ hx)) ?_
    unfold groupStep
    cases hfl : firstLetter w with
    | none => exact hacc
    | some c =>
      exact @bucketInsert_inv (fun c' x => firstLetter x = some c' ∧ P x) c w
        ⟨hfl, hws w (List.mem_cons_self _ _)⟩ acc hacc

/-- Every bucket of `group_words_by_first_letter` is non-empty and holds
only original words beginning with its key. -/
lemma group_words_inv (ws : List String) :
    ∀ e ∈ group_words_by_first_letter ws,
      e.2 ≠ [] ∧ ∀ x ∈ e.2, firstLetter x = some e.1 ∧ x ∈ ws := by
  exact foldl_groupStep_inv (· ∈ ws) ws [] (fun _ h => h) (by simp)

lemma keys_bucketInsert_self (c : Char) (w : String) :
    ∀ acc, c ∈ (bucketInsert c w acc).map Prod.fst := by
  intro acc
  induction acc with
  | nil => simp [bucketInsert]
  | cons hd tl ih =>
    obtain ⟨k, ws⟩ := hd
    rw [bucketInsert]
    split
    · simp
    · split
      · rename_i hck
        simp [hck]
      · simpa using Or.inr ih

lemma keys_bucketInsert_mono (c : Char) (w : String) :
    ∀ acc k, k ∈ acc.map Prod.fst → k ∈ (bucketInsert c w acc).map Prod.fst := by
  intro acc
  induction acc with
  | nil => simp
  | cons hd tl ih =>
    obtain ⟨k', ws⟩ := hd
    intro k hk
    rw [bucketInsert]
    split
    · simpa using Or.inr (by simpa using hk)
    · split
      · rcases (by simpa using hk : k = k' ∨ k ∈ tl.map Prod.fst) with h | h
        · simp [h]
        · simpa using Or.inr h
      · rcases (by simpa using hk : k = k' ∨ k ∈ tl.map Prod.fst) with h | h
        · simp [h]
        · simpa using Or.inr (ih k h)

lemma keys_foldl_groupStep_mono (ws : List String) :
    ∀ acc k, k ∈ acc.map Prod.fst → k ∈ (ws.foldl groupStep acc).map Prod.fst := by
  induction ws with
  | nil => intro acc k hk; simpa using hk
  | cons w ws' ih =>
    intro acc k hk
    rw [List.foldl_cons]
    refine ih _ k ?_
    unfold groupStep
    cases firstLetter w with
    | none => exact hk
    | some c => exact keys_bucketInsert_mono c w acc k hk

/-- Every first letter occurring in the words appears as a bucket key. -/
lemma mem_keys_group_of_first (ws : List String) (c : Char) :
    ∀ acc w, w ∈ ws → firstLetter w = some c →
      c ∈ (ws.foldl groupStep acc).map Prod.fst := by
  induction ws with
  | nil => intro _ _ h; simp at h
  | cons w' ws' ih =>
    intro acc w hw hfl
    rw [List.foldl_cons]
    rcases List.mem_cons.mp hw with h | h
    · subst h
      refine keys_foldl_groupStep_mono ws' _ c ?_
      unfold groupStep
      rw [hfl]
      exact keys_bucketInsert_self c w acc
    · exact ih _ w h hfl

/-- The bucket keys are exactly the first letters of the words. -/
lemma mem_keys_group_iff (ws : List String) (c : Char) :
    c ∈ (group_words_by_first_letter ws).map Prod.fst ↔
      ∃ w ∈ ws, firstLetter w = some c := by
  constructor
  · intro h
    obtain ⟨e, he, hfst⟩ := List.mem_map.mp h
    obtain ⟨hne, hall⟩ := group_words_inv ws e he
    obtain ⟨x, hx⟩ := List.exists_mem_of_ne_nil _ hne
    obtain ⟨hxf, hxw⟩ := hall x hx
    exact ⟨x, hxw, by rw [hxf, hfst]⟩
  · intro ⟨w, hw, hfl⟩
    exact mem_keys_group_of_first ws c [] w hw hfl

/-- Whatever `lookupGroup` returns from a bucket map consists of original
words beginning with the looked-up letter. -/
lemma lookupGroup_spec (ws : List String) (c : Char) :
    ∀ x ∈ lookupGroup (group_words_by_first_letter ws) c,
      firstLetter x = some c ∧ x ∈ ws := by
  intro x hx
  unfold lookupGroup at hx
  cases hfind : (group_words_by_first_letter ws).find? (fun e => e.1 == c) with
  | none => rw [hfind] at hx; simp at hx
  | some e =>
    rw [hfind] at hx
    have hkey : e.1 = c := by simpa using List.find?_some hfind
    have hmem : e ∈ group_words_by_first_letter ws := List.mem_of_find?_eq_some hfind
    obtain ⟨hf, hw⟩ := (group_words_inv ws e hmem).2 x hx
    exact ⟨by rw [hf, hkey], hw⟩

/-- The group keys of `Alliterations::from` are the noun bucket keys. -/
lemma fromPetnames_keys (p : Petnames) :
    (Alliterations.fromPetnames p).groups.map Prod.fst =
      (group_words_by_first_letter p.nouns).map Prod.fst := by
  unfold Alliterations.fromPetnames
  rw [List.map_map]
  rfl

/-- Membership in a group of `Alliterations::from`: all three sub-lists
hold original words beginning with the group key, and the noun sub-list
is non-empty. -/
lemma fromPetnames_mem (p : Petnames) (c : Char) (g : Petnames)
    (h : (c, g) ∈ (Alliterations.fromPetnames p).groups) :
    (∀ w ∈ g.adjectives, firstLetter w = some c ∧ w ∈ p.adjectives) ∧
    (∀ w ∈ g.adverbs, firstLetter w = some c ∧ w ∈ p.adverbs) ∧
    (∀ w ∈ g.nouns, firstLetter w = some c ∧ w ∈ p.nouns) ∧
    g.nouns ≠ [] := by
  unfold Alliterations.fromPetnames at h
  obtain ⟨e, he, heq⟩ := List.mem_map.mp h
  obtain ⟨hc, hg⟩ := Prod.mk.injEq .. ▸ heq
  subst hc
  subst hg
  refine ⟨fun w hw => lookupGroup_spec p.adjectives _ w hw,
          fun w hw => lookupGroup_spec p.adverbs _ w hw,
          fun w hw => (group_words_inv p.nouns e he).2 w hw,
          (group_words_inv p.nouns e he).1⟩

lemma mem_concatMap {α β : Type} (f : α → List β) :
    ∀ (l : List α) (y : β), y ∈ concatMap f l ↔ ∃ x ∈ l, y ∈ f x := by
  intro l y
  induction l with
  | nil => simp [concatMap]
  | cons x xs ih => simp [concatMap, ih]

lemma concatMap_length {α β : Type} (f : α → List β) (n : Nat) :
    ∀ l : List α, (∀ x ∈ l, (f x).length = n) →
      (concatMap f l).length = n * l.length := by
  intro l
  induction l with
  | nil => simp [concatMap]
  | cons x xs ih =>
    intro h
    rw [concatMap, List.length_append, ih (fun y hy => h y (List.mem_cons_of_mem _ hy)),
      h x (List.mem_cons_self _ _), List.length_cons, Nat.mul_succ]
    omega

lemma concatMap_getElem? {α β : Type} (f : α → List β) (n i : Nat) (hi : i < n) :
    ∀ (l : List α) (j : Nat), (∀ x ∈ l, (f x).length = n) →
      (concatMap f l)[i + n * j]? = l[j]?.bind (fun x => (f x)[i]?) := by
  intro l
  induction l with
  | nil =>
    intro j _
    simp [concatMap]
  | cons x xs ih =>
    intro j h
    match j with
    | 0 =>
      rw [concatMap, Nat.mul_zero, Nat.add_zero,
        List.getElem?_append_left (by rw [h x (List.mem_cons_self _ _)]; exact hi)]
      simp
    | j' + 1 =>
      have hlen : (f x).length = n := h x (List.mem_cons_self _ _)
      have hge : (f x).length ≤ i + n * (j' + 1) := by
        rw [hlen, Nat.mul_succ]
        omega
      rw [concatMap, List.getElem?_append_right hge, hlen]
      have : i + n * (j' + 1) - n = i + n * j' := by
        rw [Nat.mul_succ]
        omega
      rw [this, ih j' (fun y hy => h y (List.mem_cons_of_mem _ hy))]
      simp

lemma tuples_length {α : Type} : ∀ bufs : List (List α),
    (tuples bufs).length = (bufs.map List.length).prod := by
  intro bufs
  induction bufs with
  | nil => simp [tuples]
  | cons b bs ih =>
    rw [tuples, concatMap_length _ b.length _ (fun rest _ => List.length_map _ _),
      List.map_cons, List.prod_cons, ih, Nat.mul_comm]

lemma mem_tuples {α : Type} : ∀ (bufs : List (List α)) (t : List α),
    t ∈ tuples bufs → List.Forall₂ (fun b w => w ∈ b) bufs t := by
  intro bufs
  induction bufs with
  | nil =>
    intro t ht
    simp only [tuples, List.mem_singleton] at ht
    subst ht
    exact List.Forall₂.nil
  | cons b bs ih =>
    intro t ht
    rw [tuples, mem_concatMap] at ht
    obtain ⟨rest, hrest, ht⟩ := ht
    obtain ⟨w, hw, hweq⟩ := List.mem_map.mp ht
    subst hweq
    exact List.Forall₂.cons hw (ih rest hrest)

lemma concatMap_nodup {α β : Type} (f : α → List β) :
    ∀ l : List α, l.Nodup → (∀ x ∈ l, (f x).Nodup) →
      (∀ x ∈ l, ∀ y ∈ l, x ≠ y → ∀ z ∈ f x, z ∉ f y) →
      (concatMap f l).Nodup := by
  intro l
  induction l with
  | nil => intro _ _ _; simp [concatMap]
  | cons x xs ih =>
    intro hnd hone hdisj
    rw [concatMap]
    refine List.Nodup.append (hone x (List.mem_cons_self _ _))
      (ih (List.Nodup.of_cons hnd)
        (fun y hy => hone y (List.mem_cons_of_mem _ hy))
        (fun y hy z hz => hdisj y (List.mem_cons_of_mem _ hy) z (List.mem_cons_of_mem _ hz)))
      ?_
    intro z hzx hzrest
    obtain ⟨y, hy, hzy⟩ := (mem_concatMap f xs z).mp hzrest
    have hxy : x ≠ y := by
      intro hcon
      subst hcon
      exact (List.nodup_cons.mp hnd).1 hy
    exact hdisj x (List.mem_cons_self _ _) y (List.mem_cons_of_mem _ hy) hxy z hzx hzy

lemma tuples_nodup {α : Type} : ∀ bufs : List (List α),
    (∀ b ∈ bufs, b.Nodup) → (tuples bufs).Nodup := by
  intro bufs
  induction bufs with
  | nil => intro _; simp [tuples]
  | cons b bs ih =>
    intro h
    rw [tuples]
    refine concatMap_nodup _ _ (ih (fun x hx => h x (List.mem_cons_of_mem _ hx))) ?_ ?_
    · intro rest _
      refine List.Nodup.map ?_ (h b (List.mem_cons_self _ _))
      intro a a' ha
      exact (List.cons.injEq .. ▸ ha).1
    · intro rest _ rest' _ hne z hz hz'
      obtain ⟨w, _, hw⟩ := List.mem_map.mp hz
      obtain ⟨w', _, hw'⟩ := List.mem_map.mp hz'
      apply hne
      rw [← hw] at hw'
      exact ((List.cons.injEq .. ▸ hw').2).symm

/-- A successful carry step preserves cursor validity and increments the
mixed-radix value by one. -/
lemma stepIdxs_some {sizes idxs : List Nat}
    (hv : List.Forall₂ (fun n i => i < n) sizes idxs) :
    ∀ idxs', stepIdxs sizes idxs = some idxs' →
      List.Forall₂ (fun n i => i < n) sizes idxs' ∧
        rank sizes idxs' = rank sizes idxs + 1 := by
  induction hv with
  | nil => intro idxs' h; simp [stepIdxs] at h
  | @cons n i ns is hi hs ih =>
    intro idxs' h
    rw [stepIdxs] at h
    by_cases hlt : i + 1 < n
    · rw [if_pos hlt] at h
      injection h with h
      subst h
      refine ⟨List.Forall₂.cons hlt hs, ?_⟩
      simp only [rank]
      omega
    · rw [if_neg hlt] at h
      obtain ⟨js, hjs, hcons⟩ := Option.map_eq_some'.mp h
      subst hcons
      obtain ⟨hjv, hjr⟩ := ih js hjs
      refine ⟨List.Forall₂.cons (by omega) hjv, ?_⟩
      simp only [rank]
      rw [hjr, Nat.mul_succ]
      omega

/-- A failed carry step means the cursor sits at the last combination. -/
lemma stepIdxs_none {sizes idxs : List Nat}
    (hv : List.Forall₂ (fun n i => i < n) sizes idxs) :
    stepIdxs sizes idxs = none → rank sizes idxs + 1 = sizes.prod := by
  induction hv with
  | nil => intro _; simp [rank]
  | @cons n i ns is hi hs ih =>
    intro h
    rw [stepIdxs] at h
    by_cases hlt : i + 1 < n
    · rw [if_pos hlt] at h
      exact absurd h (by simp)
    · rw [if_neg hlt] at h
      have hns : stepIdxs ns is = none := by
        cases hst : stepIdxs ns is with
        | none => rfl
        | some js => rw [hst] at h; simp at h
      have hr := ih hns
      simp only [rank, List.prod_cons]
      rw [← hr, Nat.mul_succ]
      omega

/-- Valid cursors rank below the total number of combinations. -/
lemma rank_lt_prod {sizes idxs : List Nat}
    (hv : List.Forall₂ (fun n i => i < n) sizes idxs) :
    rank sizes idxs < sizes.prod := by
  induction hv with
  | nil => simp [rank]
  | @cons n i ns is hi hs ih =>
    simp only [rank, List.prod_cons]
    have h2 : n * (rank ns is + 1) ≤ n * ns.prod := Nat.mul_le_mul_left n ih
    rw [Nat.mul_succ] at h2
    omega

/-- The all-zero cursor is valid when every buffer is non-empty. -/
lemma zeros_valid : ∀ bufs : List (List String), (∀ b ∈ bufs, b ≠ []) →
    List.Forall₂ (fun n i => i < n) (bufs.map List.length) (bufs.map fun _ => 0) := by
  intro bufs
  induction bufs with
  | nil => intro _; simp
  | cons b bs ih =>
    intro h
    simp only [List.map_cons]
    exact List.Forall₂.cons (List.length_pos.mpr (h b (List.mem_cons_self _ _)))
      (ih fun x hx => h x (List.mem_cons_of_mem _ hx))

/-- The all-zero cursor ranks first. -/
lemma rank_zeros : ∀ bufs : List (List String),
    rank (bufs.map List.length) (bufs.map fun _ => 0) = 0 := by
  intro bufs
  induction bufs with
  | nil => rfl
  | cons b bs ih => simp only [List.map_cons, rank, ih, Nat.mul_zero, Nat.add_zero]

/-- The tuple at a valid cursor is the product element at the cursor's
mixed-radix rank: the odometer visits `tuples` in order. -/
lemma tuples_getElem?_rank : ∀ (bufs : List (List String)) (idxs : List Nat),
    List.Forall₂ (fun n i => i < n) (bufs.map List.length) idxs →
    (tuples bufs)[rank (bufs.map List.length) idxs]? = some (tupleAt bufs idxs) := by
  intro bufs
  induction bufs with
  | nil =>
    intro idxs hv
    rw [List.map_nil] at hv
    cases hv
    rfl
  | cons b bs ih =>
    intro idxs hv
    rw [List.map_cons] at hv
    cases hv with
    | cons hi hs =>
      rename_i i is
      simp only [rank, tuples]
      rw [concatMap_getElem? _ b.length i hi (tuples bs) (rank (bs.map List.length) is)
        (fun rest _ => List.length_map _ _), ih is hs]
      simp only [Option.some_bind]
      rw [List.getElem?_map, List.getElem?_eq_getElem hi]
      simp only [Option.map_some']
      unfold tupleAt
      rw [List.zipWith_cons_cons, List.getD_eq_getElem b "" hi]

/-- While combinations remain, the enumerator runs: after `k + 1` calls it
holds a valid cursor of rank `k`, and the `k`-th call emitted the words
under that cursor. -/
lemma nrRun (bufs : List (List String)) (hne : bufs ≠ []) (hb : ∀ b ∈ bufs, b ≠ []) :
    ∀ k, k < ((bufs.map List.length).prod) →
      ∃ idxs, List.Forall₂ (fun n i => i < n) (bufs.map List.length) idxs ∧
        rank (bufs.map List.length) idxs = k ∧
        nrStateAfter bufs (k + 1) = .running idxs ∧
        nrOutput bufs k = some (tupleAt bufs idxs) := by
  have h1 : bufs.isEmpty = false := by simpa [List.isEmpty_iff] using hne
  have h2 : (bufs.any fun b => b.isEmpty) = false := by
    simp only [List.any_eq_false]
    intro b hbm
    simpa [List.isEmpty_iff] using hb b hbm
  intro k
  induction k with
  | zero =>
    intro _
    refine ⟨bufs.map (fun _ => 0), zeros_valid bufs hb, rank_zeros bufs, ?_, ?_⟩
    · show (nrNext bufs (nrStateAfter bufs 0)).2 = _
      simp [nrStateAfter, nrNext, h1, h2]
    · show (nrNext bufs (nrStateAfter bufs 0)).1 = _
      simp [nrStateAfter, nrNext, h1, h2]
  | succ k ihk =>
    intro hk1
    obtain ⟨idxs, hv, hr, hst, _⟩ := ihk (by omega)
    cases hstep : stepIdxs (bufs.map List.length) idxs with
    | none =>
      exfalso
      have := stepIdxs_none hv hstep
      omega
    | some idxs' =>
      obtain ⟨hv', hr'⟩ := stepIdxs_some hv idxs' hstep
      refine ⟨idxs', hv', by omega, ?_, ?_⟩
      · show (nrNext bufs (nrStateAfter bufs (k + 1))).2 = _
        rw [hst]
        simp [nrNext, hstep]
      · show (nrNext bufs (nrStateAfter bufs (k + 1))).1 = _
        rw [hst]
        simp [nrNext, hstep]

/-- Once every combination has been emitted the enumerator is permanently
exhausted: every later call yields nothing. -/
lemma nrDone (bufs : List (List String)) (hne : bufs ≠ []) (hb : ∀ b ∈ bufs, b ≠ []) :
    ∀ j, nrStateAfter bufs ((bufs.map List.length).prod + 1 + j) = .done ∧
      nrOutput bufs ((bufs.map List.length).prod + j) = none := by
  have hpos : 0 < (bufs.map List.length).prod := by
    refine List.prod_pos ?_
    intro x hx
    obtain ⟨b, hbm, hbl⟩ := List.mem_map.mp hx
    rw [← hbl]
    exact List.length_pos.mpr (hb b hbm)
  intro j
  induction j with
  | zero =>
    obtain ⟨idxs, hv, hr, hst, _⟩ :=
      nrRun bufs hne hb ((bufs.map List.length).prod - 1) (by omega)
    rw [show (bufs.map List.length).prod - 1 + 1 = (bufs.map List.length).prod by omega] at hst
    have hstep : stepIdxs (bufs.map List.length) idxs = none := by
      cases hstep : stepIdxs (bufs.map List.length) idxs with
      | none => rfl
      | some idxs' =>
        obtain ⟨hv', hr'⟩ := stepIdxs_some hv idxs' hstep
        have := rank_lt_prod hv'
        omega
    constructor
    · show (nrNext bufs (nrStateAfter bufs ((bufs.map List.length).prod + 0))).2 = _
      rw [Nat.add_zero, hst]
      simp [nrNext, hstep]
    · show (nrNext bufs (nrStateAfter bufs ((bufs.map List.length).prod + 0))).1 = _
      rw [Nat.add_zero, hst]
      simp [nrNext, hstep]
  | succ j ihj =>
    constructor
    · show (nrNext bufs (nrStateAfter bufs ((bufs.map List.length).prod + 1 + j))).2 = _
      rw [ihj.1]
      rfl
    · show (nrNext bufs (nrStateAfter bufs ((bufs.map List.length).prod + (j + 1)))).1 = _
      rw [show (bufs.map List.length).prod + (j + 1) = (bufs.map List.length).prod + 1 + j
        by omega, ihj.1]
      rfl

/-- The full behaviour of the enumerator over non-empty buffers: call `k`
returns exactly the `k`-th element of the product, `none` past the end. -/
lemma nrOutput_eq_getElem? (bufs : List (List String)) (hne : bufs ≠ [])
    (hb : ∀ b ∈ bufs, b ≠ []) (k : Nat) :
    nrOutput bufs k = (tuples bufs)[k]? := by
  rcases lt_or_ge k ((bufs.map List.length).prod) with hk | hk
  · obtain ⟨idxs, hv, hr, _, hout⟩ := nrRun bufs hne hb k hk
    rw [hout, ← hr, tuples_getElem?_rank bufs idxs hv]
  · obtain ⟨j, rfl⟩ : ∃ j, k = (bufs.map List.length).prod + j :=
      ⟨k - (bufs.map List.length).prod, by omega⟩
    rw [(nrDone bufs hne hb j).2]
    symm
    rw [List.getElem?_eq_none]
    rw [tuples_length]
    omega

/-- Splitting at a character that occurs in neither prefix is
unambiguous. -/
lemma append_cons_inj (c : Char) : ∀ (a b u v : List Char), c ∉ a → c ∉ b →
    a ++ c :: u = b ++ c :: v → a = b ∧ u = v := by
  intro a
  induction a with
  | nil =>
    intro b u v _ hcb h
    cases b with
    | nil =>
      simp only [List.nil_append, List.cons.injEq, true_and] at h
      exact ⟨rfl, h⟩
    | cons d b' =>
      rw [List.nil_append, List.cons_append] at h
      injection h with h1 _
      exact absurd (h1 ▸ List.mem_cons_self d b') hcb
  | cons d a' ih =>
    intro b u v hca hcb h
    cases b with
    | nil =>
      rw [List.cons_append, List.nil_append] at h
      injection h with h1 _
      exact absurd (h1 ▸ List.mem_cons_self d a') (h1 ▸ hca)
    | cons e b' =>
      rw [List.cons_append, List.cons_append] at h
      injection h with h1 h2
      obtain ⟨hab, huv⟩ := ih b' u v (fun hx => hca (List.mem_cons_of_mem _ hx))
        (fun hx => hcb (List.mem_cons_of_mem _ hx)) h2
      exact ⟨by rw [h1, hab], huv⟩

/-- Joining with a single-character separator absent from every word is
injective on word lists of equal length. -/
lemma joinChars_inj (c : Char) : ∀ (as bs : List (List Char)), as.length = bs.length →
    (∀ a ∈ as, c ∉ a) → (∀ b ∈ bs, c ∉ b) →
    joinChars [c] as = joinChars [c] bs → as = bs := by
  intro as
  induction as with
  | nil =>
    intro bs hlen _ _ _
    cases bs with
    | nil => rfl
    | cons b bs' => simp at hlen
  | cons a as' ih =>
    intro bs hlen ha hb heq
    cases bs with
    | nil => simp at hlen
    | cons b bs' =>
      cases as' with
      | nil =>
        cases bs' with
        | nil =>
          have h : a = b := heq
          rw [h]
        | cons b' bs'' => simp at hlen
      | cons a' as'' =>
        cases bs' with
        | nil => simp at hlen
        | cons b' bs'' =>
          have e1 : joinChars [c] (a :: a' :: as'') =
              a ++ [c] ++ joinChars [c] (a' :: as'') := rfl
          have e2 : joinChars [c] (b :: b' :: bs'') =
              b ++ [c] ++ joinChars [c] (b' :: bs'') := rfl
          have h' : a ++ c :: joinChars [c] (a' :: as'') =
              b ++ c :: joinChars [c] (b' :: bs'') := by
            rw [e1, e2] at heq
            simpa [List.append_assoc] using heq
          obtain ⟨hab, hjoin⟩ := append_cons_inj c _ _ _ _
            (ha a (List.mem_cons_self _ _)) (hb b (List.mem_cons_self _ _)) h'
          have htail := ih (b' :: bs'') (by simpa using hlen)
            (fun x hx => ha x (List.mem_cons_of_mem _ hx))
            (fun x hx => hb x (List.mem_cons_of_mem _ hx)) hjoin
          rw [hab, htail]

lemma joinWords_data (sep : String) : ∀ ws : List String,
    (joinWords sep ws).data = joinChars sep.data (ws.map String.data) := by
  intro ws
  induction ws with
  | nil => rfl
  | cons w ws' ih =>
    cases ws' with
    | nil => rfl
    | cons w' ws'' =>
      show (w ++ sep ++ joinWords sep (w' :: ws'')).data = _
      rw [String.data_append, String.data_append, ih]
      rfl

/-- `joinWords` with a single-character separator occurring in no word is
injective on equal-length word lists. -/
lemma joinWords_injOn (c : Char) (t1 t2 : List String)
    (hlen : t1.length = t2.length)
    (h1 : ∀ w ∈ t1, c ∉ w.data) (h2 : ∀ w ∈ t2, c ∉ w.data)
    (heq : joinWords (String.singleton c) t1 = joinWords (String.singleton c) t2) :
    t1 = t2 := by
  have hd : joinChars [c] (t1.map String.data) = joinChars [c] (t2.map String.data) := by
    have h := congrArg String.data heq
    rwa [joinWords_data, joinWords_data] at h
  have hmap := joinChars_inj c (t1.map String.data) (t2.map String.data)
    (by simp [hlen])
    (fun a ha => by obtain ⟨w, hw, hweq⟩ := List.mem_map.mp ha; exact hweq ▸ h1 w hw)
    (fun b hb => by obtain ⟨w, hw, hweq⟩ := List.mem_map.mp hb; exact hweq ▸ h2 w hw)
    hd
  exact List.map_injective_iff.mpr (fun a b h => String.ext h) hmap

/-- C1: For every word count `N` with `1 ≤ N ≤ 255` and every random
source, if all three word lists (adjectives, adverbs, nouns) are
non-empty, then `Petnames::generate_raw(rng, N)` returns `some` list of
exactly `N` words, in role order: `N - 2` adverbs when `N ≥ 2` (0
otherwise), then 1 adjective when `N ≥ 2`, then 1 noun. -/
theorem generate_raw_returns_n_words (p : Petnames) (rng : Rng) (N : Nat)
    (h1 : 1 ≤ N) (h255 : N ≤ 255)
    (hadj : p.adjectives ≠ []) (hadv : p.adverbs ≠ []) (hnoun : p.nouns ≠ []) :
    ∃ ws, p.generate_raw rng N = some ws ∧ ws.length = N ∧
      List.Forall₂ (fun role w => w ∈ p.roleList role) (roleSequence N) ws := by
  have hall : ∀ role, p.roleList role ≠ [] := by
    intro role
    cases role <;> assumption
  have hfilter : ((Lists.new N).seq).filter (fun ro => !(p.roleList ro).isEmpty) =
      (Lists.new N).seq := by
    rw [List.filter_eq_self]
    intro role _
    simpa [List.isEmpty_iff] using hall role
  have hdraw := drawAll_forall₂ p ((Lists.new N).seq) rng
  rw [hfilter] at hdraw
  have hlen : (p.drawnWords rng N).length = N := by
    have hl := List.Forall₂.length_eq hdraw
    unfold Petnames.drawnWords
    rw [← hl, Lists.seq_new, length_roleSequence]
  have hne : ¬((p.drawnWords rng N).isEmpty = true) := by
    rw [List.isEmpty_iff]
    intro hcon
    rw [hcon] at hlen
    simp at hlen
    omega
  refine ⟨p.drawnWords rng N, ?_, hlen, ?_⟩
  · unfold Petnames.generate_raw
    rw [if_neg hne]
  · rw [← Lists.seq_new]
    exact hdraw

theorem generate_raw_returns_n_words_witness :
    ∃ ws, pEx.generate_raw rng0 3 = some ws ∧ ws.length = 3 ∧
      List.Forall₂ (fun role w => w ∈ pEx.roleList role) (roleSequence 3) ws :=
  generate_raw_returns_n_words pEx rng0 3 (by decide) (by decide) (by decide) (by decide)
    (by decide)

/-- C2: `cardinality(0) = 0`; `cardinality(1) = |nouns|`;
`cardinality(2) = |adjectives| * |nouns|`; for `3 ≤ N ≤ 255`,
`cardinality(N) = |adverbs|^(N-2) * |adjectives| * |nouns|` computed with
saturating `u128` multiplication, clamping at `u128::MAX`, and
`cardinality` never exceeds `u128::MAX` (so never overflows or panics)
for any list sizes. -/
theorem cardinality_spec (p : Petnames) (N : Nat)
    (ha : p.adjectives.length ≤ usizeMax)
    (hb : p.adverbs.length ≤ usizeMax)
    (hc : p.nouns.length ≤ usizeMax) :
    p.cardinality 0 = 0 ∧
    p.cardinality 1 = p.nouns.length ∧
    p.cardinality 2 = p.adjectives.length * p.nouns.length ∧
    (3 ≤ N → N ≤ 255 →
      p.cardinality N =
        min (p.adverbs.length ^ (N - 2) * p.adjectives.length * p.nouns.length) u128Max) ∧
    (∀ m, p.cardinality m ≤ u128Max) := by
  refine ⟨rfl, rfl, ?_, ?_, fun m => cardinality_le p m ha hb hc⟩
  · show saturatingMul p.adjectives.length p.nouns.length = _
    unfold saturatingMul
    refine Nat.min_eq_left ?_
    calc p.adjectives.length * p.nouns.length ≤ usizeMax * usizeMax :=
        Nat.mul_le_mul ha hc
    _ ≤ u128Max := by norm_num [usizeMax, u128Max]
  · intro h3 _
    obtain ⟨n, rfl⟩ : ∃ n, N = n + 3 := ⟨N - 3, by omega⟩
    unfold Petnames.cardinality
    rw [Lists.seq_new]
    have hseq : roleSequence (n + 3) =
        List.replicate (n + 1) ListRole.adverb ++ [ListRole.adjective, ListRole.noun] := by
      unfold roleSequence
      rw [show n + 3 - 2 = n + 1 by omega, if_pos (by omega : 2 ≤ n + 3),
        if_pos (by omega : 1 ≤ n + 3), List.append_assoc]
      rfl
    rw [hseq, List.map_append, List.map_replicate]
    rw [List.replicate_succ, List.cons_append]
    show List.foldl saturatingMul p.adverbs.length
        (List.replicate n p.adverbs.length ++ [p.adjectives.length, p.nouns.length]) = _
    rw [foldl_satMul_eq _ _ (le_trans hb usizeMax_le_u128Max), List.prod_append,
      List.prod_replicate]
    congr 1
    show p.adverbs.length * (p.adverbs.length ^ n * (p.adjectives.length * (p.nouns.length * 1)))
      = p.adverbs.length ^ (n + 3 - 2) * p.adjectives.length * p.nouns.length
    rw [show n + 3 - 2 = n + 1 by omega, pow_succ]
    ring

theorem cardinality_spec_witness :
    pEx.cardinality 1 = 3 ∧
    pEx.cardinality 3 = min (2 ^ 1 * 2 * 3) u128Max :=
  ⟨(cardinality_spec pEx 3 (by decide) (by decide) (by decide)).2.1,
    (cardinality_spec pEx 3 (by decide) (by decide) (by decide)).2.2.2.1 (by decide) (by decide)⟩

/-- C3: For every store, word count and random source, `generate_raw`
draws exactly one word for each role-sequence position whose list is
non-empty, in sequence order (each drawn word belongs to its position's
list), and silently skips positions with empty lists, so the drawn list's
length is the number of positions with non-empty lists. -/
theorem generate_raw_skips_empty_lists (p : Petnames) (rng : Rng) (N : Nat) :
    List.Forall₂ (fun role w => w ∈ p.roleList role)
      (((Lists.new N).seq).filter (fun role => !(p.roleList role).isEmpty))
      (p.drawnWords rng N) ∧
    (p.drawnWords rng N).length =
      ((Lists.new N).seq).countP (fun role => !(p.roleList role).isEmpty) := by
  have hdraw := drawAll_forall₂ p ((Lists.new N).seq) rng
  refine ⟨hdraw, ?_⟩
  unfold Petnames.drawnWords
  rw [← List.Forall₂.length_eq hdraw, List.countP_eq_length_filter]

theorem generate_raw_skips_empty_lists_witness :
    (pEx.drawnWords rng0 3).length =
      ((Lists.new 3).seq).countP (fun role => !(pEx.roleList role).isEmpty) :=
  (generate_raw_skips_empty_lists pEx rng0 3).2

/-- C4 counterexample: with non-empty word lists, requesting `n = 0` words
makes `generate` report absence (`None`), not an explicit empty name. -/
theorem generate_zero_counterexample :
    Petnames.generate pEx rng0 0 "-" = none ∧
    Petnames.generate pEx rng0 0 "-" ≠ some "" := by
  exact ⟨rfl, by decide⟩

/-- C4 (amended): `generate` reports absence exactly when zero words were
drawn — including for `n = 0`, which also yields absence rather than an
explicit empty name. -/
theorem generate_none_iff_no_words (p : Petnames) (rng : Rng) (n : Nat) (sep : String) :
    (p.generate rng n sep = none ↔ p.drawnWords rng n = []) ∧
    p.generate rng 0 sep = none := by
  constructor
  · unfold Petnames.generate Petnames.generate_raw
    by_cases h : (p.drawnWords rng n).isEmpty
    · simp [h, List.isEmpty_iff.mp h]
    · simp only [h, Bool.false_eq_true, if_false, Option.map_some', ne_eq]
      constructor
      · intro hcon
        simp at hcon
      · intro hcon
        exact absurd (List.isEmpty_iff.mpr hcon) h
  · rfl

theorem generate_none_iff_no_words_witness :
    Petnames.generate pEx rng0 0 "-" = none :=
  (generate_none_iff_no_words pEx rng0 0 "-").2

/-- A successful random choice picks an element of the list. -/
lemma chooseList_mem {α : Type} {l : List α} {r r' : Rng} {x : α}
    (h : chooseList l r = (some x, r')) : x ∈ l := by
  unfold chooseList chooseIdx at h
  by_cases hl : l.length = 0
  · rw [if_pos hl] at h
    simp at h
  · rw [if_neg hl] at h
    simp only [Rng.next] at h
    have h1 : l.get? (r.stream r.pos % l.length) = some x :=
      (Prod.mk.injEq .. ▸ h).1
    exact List.get?_mem h1

/-- Each element of the right list of a `Forall₂` is related to some
element of the left list. -/
lemma forall₂_mem_right {α β : Type} {R : α → β → Prop} :
    ∀ {as : List α} {bs : List β}, List.Forall₂ R as bs →
      ∀ b ∈ bs, ∃ a ∈ as, R a b := by
  intro as bs h
  induction h with
  | nil => intro b hb; simp at hb
  | cons hR _ ih =>
    intro b hb
    rcases List.mem_cons.mp hb with h | h
    · exact ⟨_, List.mem_cons_self _ _, h ▸ hR⟩
    · obtain ⟨a, ha, hr⟩ := ih b h
      exact ⟨a, List.mem_cons_of_mem _ ha, hr⟩

/-- C5: The `Alliterations` built by `Alliterations::from(p)` has group
keys exactly the first characters of `p`'s nouns (words with no
characters dropped); every word of every sub-list of the group for `c`
begins with `c`; and the spec's concrete example produces exactly the
groups `'a' ↦ (able, ∅, ant)`, `'b' ↦ (bold, burly, bee)`,
`'c' ↦ (∅, curly, cow)`. -/
theorem alliterations_from_spec :
    (∀ p c, c ∈ (Alliterations.fromPetnames p).groups.map Prod.fst ↔
        ∃ w ∈ p.nouns, firstLetter w = some c) ∧
    (∀ p c g, (c, g) ∈ (Alliterations.fromPetnames p).groups →
        (∀ w ∈ g.adjectives, firstLetter w = some c) ∧
        (∀ w ∈ g.adverbs, firstLetter w = some c) ∧
        (∀ w ∈ g.nouns, firstLetter w = some c)) ∧
    (Alliterations.fromPetnames pEx).groups =
      [('a', ⟨["able"], [], ["ant"]⟩), ('b', ⟨["bold"], ["burly"], ["bee"]⟩),
       ('c', ⟨[], ["curly"], ["cow"]⟩)] := by
  refine ⟨?_, ?_, by decide⟩
  · intro p c
    rw [fromPetnames_keys]
    exact mem_keys_group_iff p.nouns c
  · intro p c g h
    obtain ⟨h1, h2, h3, _⟩ := fromPetnames_mem p c g h
    exact ⟨fun w hw => (h1 w hw).1, fun w hw => (h2 w hw).1, fun w hw => (h3 w hw).1⟩

theorem alliterations_from_spec_witness :
    ('a' ∈ (Alliterations.fromPetnames pEx).groups.map Prod.fst ↔
      ∃ w ∈ pEx.nouns, firstLetter w = some 'a') :=
  alliterations_from_spec.1 pEx 'a'

/-- C6: `Alliterations::generate_raw` on an `Alliterations` built from a
`Petnames` selects a single group and delegates the draw to it, so
whenever it returns a name, every word of that name begins with the same
first letter. -/
theorem alliterations_generate_raw_alliterative (p : Petnames) (rng : Rng) (n : Nat)
    (ws : List String)
    (h : (Alliterations.fromPetnames p).generate_raw rng n = some ws) :
    ∃ c, ∀ w ∈ ws, firstLetter w = some c := by
  unfold Alliterations.generate_raw at h
  rcases hch : chooseList ((Alliterations.fromPetnames p).groups.map (fun e => e.2)) rng
    with ⟨og, r'⟩
  rw [hch] at h
  cases og with
  | none => simp at h
  | some g =>
    have hg : g ∈ (Alliterations.fromPetnames p).groups.map (fun e => e.2) :=
      chooseList_mem hch
    obtain ⟨e, hmem, heq⟩ := List.mem_map.mp hg
    obtain ⟨c, g'⟩ := e
    simp only at heq
    subst heq
    refine ⟨c, ?_⟩
    intro w hw
    have h' : (if (g'.drawnWords r' n).isEmpty = true then none
        else some (g'.drawnWords r' n)) = some ws := h
    by_cases hemp : (g'.drawnWords r' n).isEmpty = true
    · rw [if_pos hemp] at h'
      simp at h'
    · rw [if_neg hemp] at h'
      injection h' with h'
      subst h'
      have hfa := drawAll_forall₂ g' ((Lists.new n).seq) r'
      obtain ⟨role, _, hwrole⟩ := forall₂_mem_right hfa w hw
      obtain ⟨hadj, hadv, hnoun, _⟩ := fromPetnames_mem p c g' hmem
      cases role with
      | adverb => exact (hadv w hwrole).1
      | adjective => exact (hadj w hwrole).1
      | noun => exact (hnoun w hwrole).1

theorem alliterations_generate_raw_alliterative_witness :
    ∃ c, ∀ w ∈ ["able", "ant"], firstLetter w = some c :=
  alliterations_generate_raw_alliterative pEx rng0 3 ["able", "ant"] (by decide)

/-- C7: `Alliterations::cardinality(n)` is the saturating `u128` sum of
the group cardinalities, and `0` when there are no groups. -/
theorem alliterations_cardinality_sum (al : Alliterations) (n : Nat)
    (h : ∀ g ∈ al.groups, g.2.adjectives.length ≤ usizeMax ∧
      g.2.adverbs.length ≤ usizeMax ∧ g.2.nouns.length ≤ usizeMax) :
    al.cardinality n =
      min ((al.groups.map (fun e => e.2.cardinality n)).sum) u128Max ∧
    Alliterations.cardinality ⟨[]⟩ n = 0 := by
  refine ⟨?_, rfl⟩
  unfold Alliterations.cardinality reduceD
  cases hmap : al.groups.map (fun e => e.2.cardinality n) with
  | nil => simp
  | cons x xs =>
    have hx : x ∈ al.groups.map (fun e => e.2.cardinality n) := by
      rw [hmap]
      exact List.mem_cons_self _ _
    obtain ⟨g, hgm, hgx⟩ := List.mem_map.mp hx
    obtain ⟨h1, h2, h3⟩ := h g hgm
    have hxle : x ≤ u128Max := hgx ▸ cardinality_le g.2 n h1 h2 h3
    show List.foldl saturatingAdd x xs = _
    rw [foldl_satAdd_eq xs x hxle, List.sum_cons]

theorem alliterations_cardinality_sum_witness :
    (Alliterations.fromPetnames pEx).cardinality 2 =
      min (((Alliterations.fromPetnames pEx).groups.map
        (fun e => e.2.cardinality 2)).sum) u128Max :=
  (alliterations_cardinality_sum (Alliterations.fromPetnames pEx) 2 (by decide)).1

/-- C8: After `retain(p)` each of the three lists contains exactly the
original words satisfying the predicate, in order; consequently, if the
predicate empties one role's list, `cardinality(N)` is `0` for every `N`
whose role sequence visits that role, and the sampling generator omits
that role from the drawn output. -/
theorem retain_filters_and_zeroes (p : Petnames) (predicate : String → Bool) :
    (p.retain predicate).adjectives = p.adjectives.filter predicate ∧
    (p.retain predicate).adverbs = p.adverbs.filter predicate ∧
    (p.retain predicate).nouns = p.nouns.filter predicate ∧
    (∀ N role, role ∈ (Lists.new N).seq → (p.retain predicate).roleList role = [] →
      (p.retain predicate).cardinality N = 0) ∧
    (∀ rng N role, (p.retain predicate).roleList role = [] →
      role ∉ ((Lists.new N).seq).filter
        (fun ro => !((p.retain predicate).roleList ro).isEmpty) ∧
      List.Forall₂ (fun ro w => w ∈ (p.retain predicate).roleList ro)
        (((Lists.new N).seq).filter (fun ro => !((p.retain predicate).roleList ro).isEmpty))
        ((p.retain predicate).drawnWords rng N)) := by
  refine ⟨rfl, rfl, rfl, ?_, ?_⟩
  · intro N role hrole hempty
    have hmem : (0 : Nat) ∈
        ((Lists.new N).seq).map (fun l => ((p.retain predicate).roleList l).length) := by
      refine List.mem_map.mpr ⟨role, hrole, ?_⟩
      simp [hempty]
    unfold Petnames.cardinality reduceD
    cases hl : ((Lists.new N).seq).map (fun l => ((p.retain predicate).roleList l).length) with
    | nil => simp [hl] at hmem
    | cons x xs =>
      rw [hl] at hmem
      show List.foldl saturatingMul x xs = 0
      refine foldl_satMul_zero xs x ?_
      rcases List.mem_cons.mp hmem with h | h
      · exact Or.inl h.symm
      · exact Or.inr h
  · intro rng N role hempty
    constructor
    · intro hcon
      obtain ⟨_, hcond⟩ := List.mem_filter.mp hcon
      rw [hempty] at hcond
      simp at hcond
    · exact drawAll_forall₂ (p.retain predicate) ((Lists.new N).seq) rng

theorem retain_filters_and_zeroes_witness :
    (pEx.retain fun w => w == "able" || w == "ant").cardinality 3 = 0 :=
  (retain_filters_and_zeroes pEx (fun w => w == "able" || w == "ant")).2.2.2.1 3
    ListRole.adverb (by decide) (by decide)

/-- C9 counterexample: a store with finite non-empty lists whose noun
list repeats a word. For `N = 1` the enumeration yields the same name
string twice, so it does not yield `cardinality(1) = 2` *distinct*
strings with zero duplicates. -/
theorem iter_non_repeating_counterexample :
    iterNonRepeatingOut pDup "." 1 0 = some "a" ∧
    iterNonRepeatingOut pDup "." 1 1 = some "a" ∧
    pDup.cardinality 1 = 2 := by decide

/-- C9 (amended, spec-modelled): over duplicate-free non-empty visited
lists and a single-character separator occurring in no word, the
non-repeating enumeration's `k`-th call yields the `k`-th of the
`∏ |visited list|` pairwise-distinct names and `none` from then on
(permanent termination); the total equals `cardinality(N)` whenever the
product does not exceed the `u128` saturation ceiling; and if any visited
list is empty or `N = 0`, the very first call yields nothing. -/
theorem iter_non_repeating_amended :
    (∀ (p : Petnames) (sep : String) (N : Nat),
      (buffersFor p N = [] ∨ ∃ b ∈ buffersFor p N, b = []) →
      iterNonRepeatingOut p sep N 0 = none) ∧
    (∀ (p : Petnames) (c : Char) (N : Nat),
      1 ≤ N →
      (∀ role ∈ (Lists.new N).seq, p.roleList role ≠ []) →
      (∀ role ∈ (Lists.new N).seq, (p.roleList role).Nodup) →
      (∀ role ∈ (Lists.new N).seq, ∀ w ∈ p.roleList role, c ∉ w.data) →
      (∀ k, iterNonRepeatingOut p (String.singleton c) N k =
        ((tuples (buffersFor p N)).map (joinWords (String.singleton c)))[k]?) ∧
      ((tuples (buffersFor p N)).map (joinWords (String.singleton c))).Nodup ∧
      (tuples (buffersFor p N)).length = ((buffersFor p N).map List.length).prod ∧
      (((buffersFor p N).map List.length).prod ≤ u128Max →
        (tuples (buffersFor p N)).length = p.cardinality N)) := by
  constructor
  · intro p sep N h
    have hcond :
        ((buffersFor p N).isEmpty || (buffersFor p N).any fun b => b.isEmpty) = true := by
      rcases h with h | ⟨b, hb, hbe⟩
      · simp [h]
      · rw [Bool.or_eq_true]
        refine Or.inr ?_
        rw [List.any_eq_true]
        exact ⟨b, hb, by simp [hbe]⟩
    unfold iterNonRepeatingOut nrOutput
    simp [nrStateAfter, nrNext, hcond]
  · intro p c N hN hne hnd hsep
    have hbne : ∀ b ∈ buffersFor p N, b ≠ [] := by
      intro b hb
      obtain ⟨role, hrole, hbe⟩ := List.mem_map.mp hb
      exact hbe ▸ hne role hrole
    have hblen : (buffersFor p N).length = N := by
      unfold buffersFor
      rw [List.length_map, Lists.seq_new, length_roleSequence]
    have hbnil : buffersFor p N ≠ [] := by
      intro hcon
      rw [hcon] at hblen
      simp at hblen
      omega
    have hout : ∀ k, nrOutput (buffersFor p N) k = (tuples (buffersFor p N))[k]? :=
      fun k => nrOutput_eq_getElem? _ hbnil hbne k
    refine ⟨?_, ?_, tuples_length _, ?_⟩
    · intro k
      unfold iterNonRepeatingOut
      rw [hout k, List.getElem?_map]
    · refine List.Nodup.map_on ?_ (tuples_nodup _ ?_)
      · intro t1 ht1 t2 ht2 heq
        have hf1 := mem_tuples _ t1 ht1
        have hf2 := mem_tuples _ t2 ht2
        refine joinWords_injOn c t1 t2 ?_ ?_ ?_ heq
        · rw [← List.Forall₂.length_eq hf1, ← List.Forall₂.length_eq hf2]
        · intro w hw
          obtain ⟨b, hb, hwb⟩ := forall₂_mem_right hf1 w hw
          obtain ⟨role, hrole, hbe⟩ := List.mem_map.mp hb
          exact hsep role hrole w (hbe ▸ hwb)
        · intro w hw
          obtain ⟨b, hb, hwb⟩ := forall₂_mem_right hf2 w hw
          obtain ⟨role, hrole, hbe⟩ := List.mem_map.mp hb
          exact hsep role hrole w (hbe ▸ hwb)
      · intro b hb
        obtain ⟨role, hrole, hbe⟩ := List.mem_map.mp hb
        exact hbe ▸ hnd role hrole
    · intro hprod
      rw [tuples_length]
      have hmm : (buffersFor p N).map List.length =
          ((Lists.new N).seq).map (fun l => (p.roleList l).length) := by
        unfold buffersFor
        rw [List.map_map]
        rfl
      have hpos : ∀ y ∈ (buffersFor p N).map List.length, 0 < y := by
        intro y hy
        obtain ⟨b, hb, hbe⟩ := List.mem_map.mp hy
        exact hbe ▸ List.length_pos.mpr (hbne b hb)
      unfold Petnames.cardinality reduceD
      rw [← hmm]
      cases hl : (buffersFor p N).map List.length with
      | nil =>
        exfalso
        have hzero : (buffersFor p N).length = 0 := by
          have := congrArg List.length hl
          rwa [List.length_map] at this
        omega
      | cons x xs =>
        rw [hl] at hprod
        have hxspos : 0 < xs.prod := by
          refine List.prod_pos ?_
          intro y hy
          exact hpos y (by rw [hl]; exact List.mem_cons_of_mem _ hy)
        have hx : x ≤ u128Max := by
          refine le_trans ?_ hprod
          rw [List.prod_cons]
          exact Nat.le_mul_of_pos_right x hxspos
        show (x :: xs).prod = List.foldl saturatingMul x xs
        rw [foldl_satMul_eq xs x hx, List.prod_cons]
        symm
        exact Nat.min_eq_left (by rw [← List.prod_cons]; exact hprod)

theorem iter_non_repeating_amended_witness :
    iterNonRepeatingOut pEx (String.singleton '.') 3 0 =
      ((tuples (buffersFor pEx 3)).map (joinWords (String.singleton '.')))[0]? :=
  (iter_non_repeating_amended.2 pEx '.' 3 (by decide) (by decide) (by decide) (by decide)).1 0

/-- `Petnames::generate_raw` never returns `Some` of an empty word
list. -/
lemma generate_raw_ne_some_nil (p : Petnames) (rng : Rng) (n : Nat) :
    p.generate_raw rng n ≠ some [] := by
  intro h
  have h' : (if (p.drawnWords rng n).isEmpty = true then none
      else some (p.drawnWords rng n)) = some [] := h
  by_cases hemp : (p.drawnWords rng n).isEmpty = true
  · rw [if_pos hemp] at h'
    simp at h'
  · rw [if_neg hemp] at h'
    injection h' with h'
    exact hemp (List.isEmpty_iff.mpr h')

/-- C10: For every store (`Petnames` or `Alliterations`), word count and
random source, `generate_raw` returns either `None` or `Some` of a
non-empty word list — never `Some` of an empty list; and `generate` is
the separator-join of `generate_raw`, so it never produces a name from
zero words. -/
theorem generate_raw_never_some_empty (p : Petnames) (al : Alliterations) (rng : Rng)
    (n : Nat) (sep : String) :
    p.generate_raw rng n ≠ some [] ∧
    al.generate_raw rng n ≠ some [] ∧
    p.generate rng n sep = (p.generate_raw rng n).map (joinWords sep) := by
  refine ⟨generate_raw_ne_some_nil p rng n, ?_, rfl⟩
  unfold Alliterations.generate_raw
  rcases hch : chooseList (al.groups.map (fun e => e.2)) rng with ⟨og, r'⟩
  rw [hch]
  cases og with
  | none => simp
  | some g => exact generate_raw_ne_some_nil g r' n

theorem generate_raw_never_some_empty_witness :
    pEx.generate_raw rng0 3 ≠ some [] :=
  (generate_raw_never_some_empty pEx (Alliterations.fromPetnames pEx) rng0 3 "-").1

end Petname
